import Mathlib

/-!
Verification of `interop/src/qif.rs`: the QIF interop harness of the quinn
repository.  Byte buffers are modelled as `List Nat` (each element one byte),
paths as `List String` (one element per component), and the filesystem and the
external qpack codec as explicit structures of functions.
-/

set_option maxHeartbeats 1000000

namespace Qif

/-- Big-endian value of a byte list (most significant byte first). -/
def beVal (l : List Nat) : Nat := l.foldl (fun a b => a * 256 + b) 0

/-- The `w`-byte big-endian encoding of `n % 256 ^ w`. -/
def beBytes : Nat → Nat → List Nat
  | 0, _ => []
  | w + 1, n => beBytes w (n / 256) ++ [n % 256]

theorem beBytes_length (w n : Nat) : (beBytes w n).length = w := by
  induction w generalizing n with
  | zero => rfl
  | succ w ih => simp [beBytes, ih]

theorem beVal_beBytes (w n : Nat) : beVal (beBytes w n) = n % 256 ^ w := by
  induction w generalizing n with
  | zero => simp [beBytes, beVal, Nat.mod_one]
  | succ w ih =>
    have h1 : beVal (beBytes w (n / 256) ++ [n % 256]) =
        beVal (beBytes w (n / 256)) * 256 + n % 256 := by
      simp [beVal, List.foldl_append]
    have h2 : n % 256 ^ (w + 1) = n % 256 + 256 * (n / 256 % 256 ^ w) := by
      rw [pow_succ, mul_comm (256 ^ w) 256]
      exact Nat.mod_mul
    rw [beBytes, h1, ih, h2]
    ring

/-- Modelled from the spec: `quinn_proto::coding::Codec` for `u64` (the
coding layer is part of the quinn repository but not under `src/`): reads an
8-byte fixed-width unsigned integer in canonical on-wire (big-endian) byte
order, failing with `UnexpectedEnd` when fewer than 8 bytes remain. -/
def u64decode (b : List Nat) : Except Unit (Nat × List Nat) :=
  if b.length < 8 then .error () else .ok (beVal (b.take 8), b.drop 8)

/-- Modelled from the spec: `quinn_proto::coding::Codec` for `u32`, as for
`u64decode` but over 4 bytes. -/
def u32decode (b : List Nat) : Except Unit (Nat × List Nat) :=
  if b.length < 4 then .error () else .ok (beVal (b.take 4), b.drop 4)

theorem u64decode_beBytes (c : Nat) (rest : List Nat) (h : c < 2 ^ 64) :
    u64decode (beBytes 8 c ++ rest) = .ok (c, rest) := by
  have hlen : (beBytes 8 c).length = 8 := beBytes_length 8 c
  have htake : (beBytes 8 c ++ rest).take 8 = beBytes 8 c := by
    rw [← hlen]; exact List.take_left _ _
  have hdrop : (beBytes 8 c ++ rest).drop 8 = rest := by
    rw [← hlen]; exact List.drop_left _ _
  have hval : beVal (beBytes 8 c) = c := by
    rw [beVal_beBytes]
    exact Nat.mod_eq_of_lt (lt_of_lt_of_le h (by norm_num))
  simp [u64decode, hlen, htake, hdrop, hval]

theorem u32decode_beBytes (n : Nat) (rest : List Nat) (h : n < 2 ^ 32) :
    u32decode (beBytes 4 n ++ rest) = .ok (n, rest) := by
  have hlen : (beBytes 4 n).length = 4 := beBytes_length 4 n
  have htake : (beBytes 4 n ++ rest).take 4 = beBytes 4 n := by
    rw [← hlen]; exact List.take_left _ _
  have hdrop : (beBytes 4 n ++ rest).drop 4 = rest := by
    rw [← hlen]; exact List.drop_left _ _
  have hval : beVal (beBytes 4 n) = n := by
    rw [beVal_beBytes]
    exact Nat.mod_eq_of_lt (lt_of_lt_of_le h (by norm_num))
  simp [u32decode, hlen, htake, hdrop, hval]

/-- The `Error` enum of `qif.rs`; `E` stands for the external
`qpack::DecoderError` type, which this harness never inspects. -/
inductive Error (E : Type) where
  | TrailingData (n : Nat)
  | UnexpectedEnd
  | BadFilename
  | IOError
  | Decode (e : E)
  deriving DecidableEq

/-- The `BlockIterator` state: a cursor over the encoded byte buffer plus the length of
the previously returned block (`last_block_len`), still to be skipped. -/
structure BlockIterator where
  buf : List Nat
  last_block_len : Nat
  deriving DecidableEq

/-- Model of `BlockIterator::next`: skip the previous block, then either report end of
stream / `TrailingData` when fewer than 12 bytes (8-byte stream id + 4-byte
length) remain, or decode the header and expose the `length`-byte block
together with the stream id. -/
def BlockIterator.next {E : Type} (s : BlockIterator) :
    Except (Error E) (Option (List Nat × Nat × BlockIterator)) :=
  let b := s.buf.drop s.last_block_len
  if b.length < 12 then
    if 0 < b.length then .error (.TrailingData b.length) else .ok none
  else
    match u64decode b with
    | .error _ => .error .UnexpectedEnd
    | .ok (current, b1) =>
      match u32decode b1 with
      | .error _ => .error .UnexpectedEnd
      | .ok (length, b2) =>
        if b2.length < length then .error .UnexpectedEnd
        else .ok (some (b2.take length, current, ⟨b2, length⟩))

/-- Full characterization of `BlockIterator.next` as arithmetic on the
buffer, eliminating the intermediate fixed-width decoders. -/
theorem next_char {E : Type} (s : BlockIterator) :
    s.next (E := E) =
      (let b := s.buf.drop s.last_block_len
       if b.length < 12 then
         if 0 < b.length then .error (.TrailingData b.length) else .ok none
       else
         let current := beVal (b.take 8)
         let len := beVal ((b.drop 8).take 4)
         let b2 := (b.drop 8).drop 4
         if b2.length < len then .error .UnexpectedEnd
         else .ok (some (b2.take len, current, ⟨b2, len⟩))) := by
  unfold BlockIterator.next
  by_cases h12 : (s.buf.drop s.last_block_len).length < 12
  · simp only [h12, if_true]
  · simp only [h12, if_false]
    have e1 : u64decode (s.buf.drop s.last_block_len) =
        .ok (beVal ((s.buf.drop s.last_block_len).take 8),
             (s.buf.drop s.last_block_len).drop 8) := by
      unfold u64decode
      rw [if_neg (by omega)]
    have e2 : u32decode ((s.buf.drop s.last_block_len).drop 8) =
        .ok (beVal (((s.buf.drop s.last_block_len).drop 8).take 4),
             ((s.buf.drop s.last_block_len).drop 8).drop 4) := by
      unfold u32decode
      rw [if_neg (by simp only [List.length_drop] at h12 ⊢; omega)]
    split
    · rename_i a heq
      rw [e1] at heq
      cases heq
    · rename_i current b1 heq
      rw [e1] at heq
      injection heq with heq
      obtain ⟨hc, hb1⟩ := Prod.mk.injEq .. ▸ heq
      subst hc
      subst hb1
      split
      · rename_i a heq2
        rw [e2] at heq2
        cases heq2
      · rename_i len b2 heq2
        rw [e2] at heq2
        injection heq2 with heq2
        obtain ⟨hl, hb2⟩ := Prod.mk.injEq .. ▸ heq2
        subst hl
        subst hb2
        rfl

theorem next_some_lt {E : Type} {s s' : BlockIterator} {p : List Nat} {c : Nat}
    (h : s.next (E := E) = .ok (some (p, c, s'))) : s'.buf.length < s.buf.length := by
  rw [next_char] at h
  simp only at h
  have hble : (s.buf.drop s.last_block_len).length ≤ s.buf.length := by simp
  by_cases h12 : (s.buf.drop s.last_block_len).length < 12
  · simp only [h12, if_true] at h
    split at h <;> simp_all
  · simp only [h12, if_false] at h
    split at h
    · exact absurd h (by simp)
    · injection h with h
      injection h with h
      have hs' : s' = ⟨((s.buf.drop s.last_block_len).drop 8).drop 4,
          beVal (((s.buf.drop s.last_block_len).drop 8).take 4)⟩ :=
        (congrArg (fun q => q.2.2) h).symm
      rw [hs']
      simp only [List.length_drop]
      omega

/-- One on-wire record: 8-byte stream id, 4-byte length, then the payload. -/
def encodeFrame (f : Nat × List Nat) : List Nat :=
  beBytes 8 f.1 ++ beBytes 4 f.2.length ++ f.2

/-- A flat concatenation of records, nothing in between and nothing left over. -/
def encodeFrames : List (Nat × List Nat) → List Nat
  | [] => []
  | f :: fs => encodeFrame f ++ encodeFrames fs

/-- The id fits in a `u64` and the payload length in a `u32`. -/
def wfFrame (f : Nat × List Nat) : Prop := f.1 < 2 ^ 64 ∧ f.2.length < 2 ^ 32

instance (f : Nat × List Nat) : Decidable (wfFrame f) := by
  unfold wfFrame; infer_instance

theorem next_end {E : Type} (s : BlockIterator)
    (hb : s.buf.drop s.last_block_len = []) : s.next (E := E) = .ok none := by
  rw [next_char]
  simp [hb]

theorem next_trailing {E : Type} (s : BlockIterator)
    (h1 : 0 < (s.buf.drop s.last_block_len).length)
    (h2 : (s.buf.drop s.last_block_len).length < 12) :
    s.next (E := E) = .error (.TrailingData (s.buf.drop s.last_block_len).length) := by
  rw [next_char]
  simp only []
  rw [if_pos h2, if_pos h1]

theorem next_encode {E : Type} (s : BlockIterator) (f : Nat × List Nat) (tail : List Nat)
    (hb : s.buf.drop s.last_block_len = encodeFrame f ++ tail)
    (hid : f.1 < 2 ^ 64) (hlen : f.2.length < 2 ^ 32) :
    s.next (E := E) = .ok (some (f.2, f.1, ⟨f.2 ++ tail, f.2.length⟩)) := by
  have hb' : s.buf.drop s.last_block_len =
      beBytes 8 f.1 ++ (beBytes 4 f.2.length ++ (f.2 ++ tail)) := by
    rw [hb, encodeFrame]
    simp [List.append_assoc]
  have l8 : (beBytes 8 f.1).length = 8 := beBytes_length 8 f.1
  have l4 : (beBytes 4 f.2.length).length = 4 := beBytes_length 4 f.2.length
  have htake8 : (beBytes 8 f.1 ++ (beBytes 4 f.2.length ++ (f.2 ++ tail))).take 8 =
      beBytes 8 f.1 := by
    rw [← l8]; exact List.take_left _ _
  have hdrop8 : (beBytes 8 f.1 ++ (beBytes 4 f.2.length ++ (f.2 ++ tail))).drop 8 =
      beBytes 4 f.2.length ++ (f.2 ++ tail) := by
    rw [← l8]; exact List.drop_left _ _
  have htake4 : (beBytes 4 f.2.length ++ (f.2 ++ tail)).take 4 = beBytes 4 f.2.length := by
    rw [← l4]; exact List.take_left _ _
  have hdrop4 : (beBytes 4 f.2.length ++ (f.2 ++ tail)).drop 4 = f.2 ++ tail := by
    rw [← l4]; exact List.drop_left _ _
  have hval8 : beVal (beBytes 8 f.1) = f.1 := by
    rw [beVal_beBytes]
    exact Nat.mod_eq_of_lt (lt_of_lt_of_le hid (by norm_num))
  have hval4 : beVal (beBytes 4 f.2.length) = f.2.length := by
    rw [beVal_beBytes]
    exact Nat.mod_eq_of_lt (lt_of_lt_of_le hlen (by norm_num))
  have h12 : ¬ (beBytes 8 f.1 ++ (beBytes 4 f.2.length ++ (f.2 ++ tail))).length < 12 := by
    simp only [List.length_append, l8, l4]
    omega
  have hpt : ¬ (f.2 ++ tail).length < f.2.length := by
    simp only [List.length_append]
    omega
  have htp : (f.2 ++ tail).take f.2.length = f.2 := List.take_left _ _
  rw [next_char]
  simp only [hb']
  rw [if_neg h12, htake8, hval8, hdrop8, htake4, hval4, hdrop4, if_neg hpt, htp]

theorem next_overrun {E : Type} (s : BlockIterator) (c n : Nat) (tail : List Nat)
    (hb : s.buf.drop s.last_block_len = beBytes 8 c ++ (beBytes 4 n ++ tail))
    (hid : c < 2 ^ 64) (hlen : n < 2 ^ 32) (ht : tail.length < n) :
    s.next (E := E) = .error .UnexpectedEnd := by
  have l8 : (beBytes 8 c).length = 8 := beBytes_length 8 c
  have l4 : (beBytes 4 n).length = 4 := beBytes_length 4 n
  have hdrop8 : (beBytes 8 c ++ (beBytes 4 n ++ tail)).drop 8 = beBytes 4 n ++ tail := by
    rw [← l8]; exact List.drop_left _ _
  have htake4 : (beBytes 4 n ++ tail).take 4 = beBytes 4 n := by
    rw [← l4]; exact List.take_left _ _
  have hdrop4 : (beBytes 4 n ++ tail).drop 4 = tail := by
    rw [← l4]; exact List.drop_left _ _
  have hval4 : beVal (beBytes 4 n) = n := by
    rw [beVal_beBytes]
    exact Nat.mod_eq_of_lt (lt_of_lt_of_le hlen (by norm_num))
  have h12 : ¬ (beBytes 8 c ++ (beBytes 4 n ++ tail)).length < 12 := by
    simp only [List.length_append, l8, l4]
    omega
  rw [next_char]
  simp only [hb]
  rw [if_neg h12, hdrop8, htake4, hval4, hdrop4, if_pos ht]

/-- Lemma: `next` looks only at the not-yet-skipped part of the buffer. -/
theorem next_congr {E : Type} (s : BlockIterator) :
    s.next (E := E) = BlockIterator.next ⟨s.buf.drop s.last_block_len, 0⟩ := by
  rw [next_char, next_char]
  simp

/-- Running the `BlockIterator` to exhaustion, collecting every yielded
(stream id, block) pair in order; this is the `while let` iteration pattern
of `EncodedFile::decode` without the codec. -/
def parseAll (s : BlockIterator) : Except (Error Unit) (List (Nat × List Nat)) :=
  match h : s.next (E := Unit) with
  | .error e => .error e
  | .ok none => .ok []
  | .ok (some (p, c, s')) =>
    match parseAll s' with
    | .error e => .error e
    | .ok rest => .ok ((c, p) :: rest)
termination_by s.buf.length
decreasing_by exact next_some_lt h

theorem parseAll_error {s : BlockIterator} {e : Error Unit}
    (h : s.next (E := Unit) = .error e) : parseAll s = .error e := by
  rw [parseAll]
  split <;> simp_all

theorem parseAll_none {s : BlockIterator}
    (h : s.next (E := Unit) = .ok none) : parseAll s = .ok [] := by
  rw [parseAll]
  split <;> simp_all

theorem parseAll_some {s s' : BlockIterator} {p : List Nat} {c : Nat}
    (h : s.next (E := Unit) = .ok (some (p, c, s'))) :
    parseAll s = match parseAll s' with
      | .error e => .error e
      | .ok rest => .ok ((c, p) :: rest) := by
  rw [parseAll]
  split <;> simp_all

theorem parseAll_congr (s : BlockIterator) :
    parseAll s = parseAll ⟨s.buf.drop s.last_block_len, 0⟩ := by
  have hc : BlockIterator.next (E := Unit) ⟨s.buf.drop s.last_block_len, 0⟩ =
      s.next (E := Unit) := (next_congr s).symm
  match hn : s.next (E := Unit) with
  | .error e => rw [parseAll_error hn, parseAll_error (hc.trans hn)]
  | .ok none => rw [parseAll_none hn, parseAll_none (hc.trans hn)]
  | .ok (some (p, c, s')) => rw [parseAll_some hn, parseAll_some (hc.trans hn)]

theorem parseAll_append (fs : List (Nat × List Nat)) (s : BlockIterator) (tail : List Nat)
    (hwf : ∀ f ∈ fs, wfFrame f)
    (hb : s.buf.drop s.last_block_len = encodeFrames fs ++ tail) :
    parseAll s = (parseAll ⟨tail, 0⟩).map (fun rest => fs ++ rest) := by
  induction fs generalizing s with
  | nil =>
    rw [parseAll_congr s]
    simp only [encodeFrames, List.nil_append] at hb
    rw [hb]
    cases hp : parseAll ⟨tail, 0⟩ <;> simp [Except.map]
  | cons f fs ih =>
    have hwff : wfFrame f := hwf f (by simp)
    have hb' : s.buf.drop s.last_block_len = encodeFrame f ++ (encodeFrames fs ++ tail) := by
      rw [hb, encodeFrames]
      simp [List.append_assoc]
    have hn := next_encode (E := Unit) s f (encodeFrames fs ++ tail) hb' hwff.1 hwff.2
    rw [parseAll_some hn]
    have hrec : parseAll ⟨f.2 ++ (encodeFrames fs ++ tail), f.2.length⟩ =
        (parseAll ⟨tail, 0⟩).map (fun rest => fs ++ rest) :=
      ih ⟨f.2 ++ (encodeFrames fs ++ tail), f.2.length⟩
        (fun g hg => hwf g (List.mem_cons_of_mem _ hg))
        (List.drop_left _ _)
    rw [hrec]
    cases hp : parseAll ⟨tail, 0⟩ <;> simp [Except.map]

/-- C3: for every byte buffer that, after the last complete frame, has `n`
leftover bytes with `1 ≤ n ≤ 11`, the frame parser fails with
`TrailingData n` where `n` is exactly that leftover byte count. -/
theorem trailing_data_reports_exact_count (fs : List (Nat × List Nat)) (extra : List Nat)
    (hwf : ∀ f ∈ fs, wfFrame f) (h1 : 1 ≤ extra.length) (h2 : extra.length ≤ 11) :
    parseAll ⟨encodeFrames fs ++ extra, 0⟩ = .error (.TrailingData extra.length) := by
  rw [parseAll_append fs ⟨encodeFrames fs ++ extra, 0⟩ extra hwf (by simp)]
  have e0 : ((⟨extra, 0⟩ : BlockIterator).buf.drop
      (⟨extra, 0⟩ : BlockIterator).last_block_len) = extra := by simp
  have ht := next_trailing (E := Unit) ⟨extra, 0⟩ (by rw [e0]; omega) (by rw [e0]; omega)
  rw [e0] at ht
  rw [parseAll_error ht]
  simp [Except.map]

theorem trailing_data_reports_exact_count_witness :
    parseAll ⟨encodeFrames [(0, [1])] ++ [9, 9, 9], 0⟩ = .error (.TrailingData 3) :=
  trailing_data_reports_exact_count [(0, [1])] [9, 9, 9] (by decide) (by decide) (by decide)

/-- C4: whenever a complete 12-byte frame header is present but its declared
length exceeds the bytes remaining after the header, the parser fails with
`UnexpectedEnd` and yields no further frames. -/
theorem declared_length_overrun_fails (fs : List (Nat × List Nat)) (c n : Nat)
    (tail : List Nat) (hwf : ∀ f ∈ fs, wfFrame f) (hid : c < 2 ^ 64)
    (hlen : n < 2 ^ 32) (ht : tail.length < n) :
    parseAll ⟨encodeFrames fs ++ (beBytes 8 c ++ (beBytes 4 n ++ tail)), 0⟩ =
      .error .UnexpectedEnd := by
  rw [parseAll_append fs ⟨encodeFrames fs ++ (beBytes 8 c ++ (beBytes 4 n ++ tail)), 0⟩
    (beBytes 8 c ++ (beBytes 4 n ++ tail)) hwf (by simp)]
  have hu := next_overrun (E := Unit) ⟨beBytes 8 c ++ (beBytes 4 n ++ tail), 0⟩ c n tail
    (List.drop_zero _) hid hlen ht
  rw [parseAll_error hu]
  simp [Except.map]

theorem declared_length_overrun_fails_witness :
    parseAll ⟨encodeFrames [] ++ (beBytes 8 3 ++ (beBytes 4 5 ++ [1, 2, 3])), 0⟩ =
      .error .UnexpectedEnd :=
  declared_length_overrun_fails [] 3 5 [1, 2, 3] (by decide) (by decide) (by decide)
    (by decide)

/-- C5: for every well-formed buffer (a flat concatenation of records, each an
8-byte stream id, a 4-byte length and exactly that many payload bytes, with
nothing left over), re-encoding each yielded frame as
(8-byte id, 4-byte length, payload) in yield order reproduces the buffer. -/
theorem parse_reencode_roundtrip (buf : List Nat)
    (h : ∃ fs, (∀ f ∈ fs, wfFrame f) ∧ buf = encodeFrames fs) :
    ∃ out, parseAll ⟨buf, 0⟩ = .ok out ∧ encodeFrames out = buf := by
  obtain ⟨fs, hwf, rfl⟩ := h
  refine ⟨fs, ?_, rfl⟩
  rw [parseAll_append fs _ [] hwf (by simp)]
  rw [parseAll_none (next_end _ (by simp))]
  simp [Except.map]

theorem parse_reencode_roundtrip_witness :
    ∃ out, parseAll ⟨encodeFrames [(0, [7]), (1, []), (2, [1, 2, 3])], 0⟩ = .ok out ∧
      encodeFrames out = encodeFrames [(0, [7]), (1, []), (2, [1, 2, 3])] :=
  parse_reencode_roundtrip _ ⟨[(0, [7]), (1, []), (2, [1, 2, 3])], by decide, rfl⟩

/-- The external qpack codec interface used by `EncodedFile::decode`: `T` is
the dynamic-table state, `E` the codec's `DecoderError` type, `H` one header
field.  `newTable` models `qpack::DynamicTable::new()`, `onEncoderRecv`
models `qpack::on_encoder_recv` (stream-0 frames, mutating the table) and
`decodeHeader` models `qpack::decode_header` (one header block against the
current table). -/
structure CodecOps (T E H : Type) where
  newTable : T
  onEncoderRecv : T → List Nat → Except E T
  decodeHeader : T → List Nat → Except E (T × List H)

/-- Observable result of `EncodedFile::decode` on a byte buffer: `panicked`
models the `.expect("next block")` panic on a parser error, `err` an `Err`
return value, `ok` an `Ok` return value. -/
inductive DecodeOutcome (E H : Type) where
  | panicked (e : Error E)
  | ok (decoded : List (List H))
  | err (e : Error E)
  deriving DecidableEq

/-- The `while let` loop of `EncodedFile::decode`: `table` is the qpack
dynamic table, `count` the number of data frames decoded so far, `decoded`
the accumulated header-field lists. -/
def decodeLoop {T E H : Type} (C : CodecOps T E H) (table : T) (count : Nat)
    (decoded : List (List H)) (s : BlockIterator) : DecodeOutcome E H :=
  match h : s.next (E := E) with
  | .error e => .panicked e
  | .ok none => .ok decoded
  | .ok (some (p, current, s')) =>
    if current = 0 then
      match C.onEncoderRecv table p with
      | .error e => .err (.Decode e)
      | .ok table' => decodeLoop C table' count decoded s'
    else if current ≠ count + 1 then
      .ok decoded
    else
      match C.decodeHeader table p with
      | .error e => .err (.Decode e)
      | .ok (table', fields) => decodeLoop C table' (count + 1) (decoded ++ [fields]) s'
termination_by s.buf.length
decreasing_by all_goals exact next_some_lt h

/-- Model of `EncodedFile::decode` on the bytes read from the file. -/
def decode {T E H : Type} (C : CodecOps T E H) (encoded : List Nat) :
    DecodeOutcome E H :=
  decodeLoop C C.newTable 0 [] ⟨encoded, 0⟩

theorem decodeLoop_panicked {T E H : Type} {C : CodecOps T E H} {table : T}
    {count : Nat} {decoded : List (List H)} {s : BlockIterator} {e : Error E}
    (h : s.next (E := E) = .error e) :
    decodeLoop C table count decoded s = .panicked e := by
  rw [decodeLoop]
  split <;> simp_all

theorem decodeLoop_end {T E H : Type} {C : CodecOps T E H} {table : T}
    {count : Nat} {decoded : List (List H)} {s : BlockIterator}
    (h : s.next (E := E) = .ok none) :
    decodeLoop C table count decoded s = .ok decoded := by
  rw [decodeLoop]
  split <;> simp_all

theorem decodeLoop_ctrl_ok {T E H : Type} {C : CodecOps T E H} {t t₁ : T}
    {k : Nat} {ds : List (List H)} {s s' : BlockIterator} {p : List Nat}
    (h : s.next (E := E) = .ok (some (p, 0, s')))
    (hop : C.onEncoderRecv t p = .ok t₁) :
    decodeLoop C t k ds s = decodeLoop C t₁ k ds s' := by
  rw [decodeLoop]
  split <;> simp_all

theorem decodeLoop_ctrl_err {T E H : Type} {C : CodecOps T E H} {t : T}
    {k : Nat} {ds : List (List H)} {s s' : BlockIterator} {p : List Nat} {e : E}
    (h : s.next (E := E) = .ok (some (p, 0, s')))
    (hop : C.onEncoderRecv t p = .error e) :
    decodeLoop C t k ds s = .err (.Decode e) := by
  rw [decodeLoop]
  split <;> simp_all

theorem decodeLoop_mismatch {T E H : Type} {C : CodecOps T E H} {t : T}
    {k : Nat} {ds : List (List H)} {s s' : BlockIterator} {p : List Nat} {c : Nat}
    (h : s.next (E := E) = .ok (some (p, c, s'))) (hc0 : c ≠ 0) (hck : c ≠ k + 1) :
    decodeLoop C t k ds s = .ok ds := by
  rw [decodeLoop]
  split <;> simp_all

theorem decodeLoop_data_ok {T E H : Type} {C : CodecOps T E H} {t t₁ : T}
    {k : Nat} {ds : List (List H)} {s s' : BlockIterator} {p : List Nat} {hf : List H}
    (h : s.next (E := E) = .ok (some (p, k + 1, s')))
    (hd : C.decodeHeader t p = .ok (t₁, hf)) :
    decodeLoop C t k ds s = decodeLoop C t₁ (k + 1) (ds ++ [hf]) s' := by
  rw [decodeLoop]
  split <;> simp_all

theorem decodeLoop_data_err {T E H : Type} {C : CodecOps T E H} {t : T}
    {k : Nat} {ds : List (List H)} {s s' : BlockIterator} {p : List Nat} {e : E}
    (h : s.next (E := E) = .ok (some (p, k + 1, s')))
    (hd : C.decodeHeader t p = .error e) :
    decodeLoop C t k ds s = .err (.Decode e) := by
  rw [decodeLoop]
  split <;> simp_all

/-- Lemma: `decodeLoop` looks only at the not-yet-skipped part of the buffer. -/
theorem decodeLoop_congr {T E H : Type} (C : CodecOps T E H) (t : T) (k : Nat)
    (ds : List (List H)) (s : BlockIterator) :
    decodeLoop C t k ds s = decodeLoop C t k ds ⟨s.buf.drop s.last_block_len, 0⟩ := by
  have hc : BlockIterator.next (E := E) ⟨s.buf.drop s.last_block_len, 0⟩ =
      s.next (E := E) := (next_congr s).symm
  match hn : s.next (E := E) with
  | .error e => rw [decodeLoop_panicked hn, decodeLoop_panicked (hc.trans hn)]
  | .ok none => rw [decodeLoop_end hn, decodeLoop_end (hc.trans hn)]
  | .ok (some (p, c, s')) =>
    by_cases hc0 : c = 0
    · subst hc0
      match hop : C.onEncoderRecv t p with
      | .ok t₁ => rw [decodeLoop_ctrl_ok hn hop, decodeLoop_ctrl_ok (hc.trans hn) hop]
      | .error e => rw [decodeLoop_ctrl_err hn hop, decodeLoop_ctrl_err (hc.trans hn) hop]
    · by_cases hck : c = k + 1
      · subst hck
        match hd : C.decodeHeader t p with
        | .ok (t₁, hf) => rw [decodeLoop_data_ok hn hd, decodeLoop_data_ok (hc.trans hn) hd]
        | .error e => rw [decodeLoop_data_err hn hd, decodeLoop_data_err (hc.trans hn) hd]
      · rw [decodeLoop_mismatch hn hc0 hck, decodeLoop_mismatch (hc.trans hn) hc0 hck]

/-- Comparison definition, following the spec's words for the DecodeDriver
protocol: a prefix of frames processes cleanly from state `(t, k, ds)` to
state `(t₂, k₂, ds₂)` when every stream-0 frame's payload is accepted by
`onEncoderRecv` and every data frame carries the next sequential id `k + 1`
and its payload decodes against the current table. -/
inductive Runs {T E H : Type} (C : CodecOps T E H) :
    T → Nat → List (List H) → List (Nat × List Nat) → T → Nat → List (List H) → Prop where
  | nil (t : T) (k : Nat) (ds : List (List H)) : Runs C t k ds [] t k ds
  | ctrl {t t₁ t₂ : T} {k k₂ : Nat} {ds ds₂ : List (List H)} {p : List Nat}
      {fs : List (Nat × List Nat)} (hop : C.onEncoderRecv t p = .ok t₁)
      (hrest : Runs C t₁ k ds fs t₂ k₂ ds₂) : Runs C t k ds ((0, p) :: fs) t₂ k₂ ds₂
  | data {t t₁ t₂ : T} {k k₂ : Nat} {ds ds₂ : List (List H)} {p : List Nat} {hf : List H}
      {fs : List (Nat × List Nat)} (hd : C.decodeHeader t p = .ok (t₁, hf))
      (hrest : Runs C t₁ (k + 1) (ds ++ [hf]) fs t₂ k₂ ds₂) :
      Runs C t k ds ((k + 1, p) :: fs) t₂ k₂ ds₂

/-- Processing an encoded clean prefix advances the loop to the post-state of
the prefix, with the remaining bytes still to be consumed. -/
theorem decodeLoop_runs {T E H : Type} {C : CodecOps T E H} {t t₂ : T} {k k₂ : Nat}
    {ds ds₂ : List (List H)} {pre : List (Nat × List Nat)} (tail : List Nat)
    (hr : Runs C t k ds pre t₂ k₂ ds₂) :
    (∀ f ∈ pre, wfFrame f) →
      decodeLoop C t k ds ⟨encodeFrames pre ++ tail, 0⟩ =
        decodeLoop C t₂ k₂ ds₂ ⟨tail, 0⟩ := by
  induction hr with
  | nil t k ds =>
    intro _
    simp only [encodeFrames, List.nil_append]
  | ctrl hop hrest ih =>
    intro hwf
    rename_i t t₁ t₂ k k₂ ds ds₂ p fs
    have hb : ((⟨encodeFrames ((0, p) :: fs) ++ tail, 0⟩ : BlockIterator).buf.drop
        (⟨encodeFrames ((0, p) :: fs) ++ tail, 0⟩ : BlockIterator).last_block_len) =
        encodeFrame (0, p) ++ (encodeFrames fs ++ tail) := by
      simp [encodeFrames, List.append_assoc]
    have hn := next_encode (E := E) ⟨encodeFrames ((0, p) :: fs) ++ tail, 0⟩ (0, p)
      (encodeFrames fs ++ tail) hb (by norm_num) (hwf (0, p) (by simp)).2
    rw [decodeLoop_ctrl_ok hn hop]
    rw [decodeLoop_congr]
    have hdrop : ((⟨p ++ (encodeFrames fs ++ tail), p.length⟩ : BlockIterator).buf.drop
        (⟨p ++ (encodeFrames fs ++ tail), p.length⟩ : BlockIterator).last_block_len) =
        encodeFrames fs ++ tail := List.drop_left _ _
    rw [hdrop]
    exact ih (fun g hg => hwf g (List.mem_cons_of_mem _ hg))
  | data hd hrest ih =>
    intro hwf
    rename_i t t₁ t₂ k k₂ ds ds₂ p hf fs
    have hb : ((⟨encodeFrames ((k + 1, p) :: fs) ++ tail, 0⟩ : BlockIterator).buf.drop
        (⟨encodeFrames ((k + 1, p) :: fs) ++ tail, 0⟩ : BlockIterator).last_block_len) =
        encodeFrame (k + 1, p) ++ (encodeFrames fs ++ tail) := by
      simp [encodeFrames, List.append_assoc]
    have hn := next_encode (E := E) ⟨encodeFrames ((k + 1, p) :: fs) ++ tail, 0⟩ (k + 1, p)
      (encodeFrames fs ++ tail) hb (hwf (k + 1, p) (by simp)).1 (hwf (k + 1, p) (by simp)).2
    rw [decodeLoop_data_ok hn hd]
    rw [decodeLoop_congr]
    have hdrop : ((⟨p ++ (encodeFrames fs ++ tail), p.length⟩ : BlockIterator).buf.drop
        (⟨p ++ (encodeFrames fs ++ tail), p.length⟩ : BlockIterator).last_block_len) =
        encodeFrames fs ++ tail := List.drop_left _ _
    rw [hdrop]
    exact ih (fun g hg => hwf g (List.mem_cons_of_mem _ hg))

theorem encodeFrames_append (xs ys : List (Nat × List Nat)) :
    encodeFrames (xs ++ ys) = encodeFrames xs ++ encodeFrames ys := by
  induction xs with
  | nil => simp [encodeFrames]
  | cons x xs ih => simp [encodeFrames, ih]

/-- A concrete codec used to instantiate the driver theorems: the table is
trivial, a header block decodes to its own byte list, and the payload `[9]`
is rejected by both operations. -/
def flagCodec : CodecOps Unit Unit Nat where
  newTable := ()
  onEncoderRecv := fun _ p => if p = [9] then .error () else .ok ()
  decodeHeader := fun _ p => if p = [9] then .error () else .ok ((), p)

/-- C6: a well-formed input of one control frame (stream id 0) followed by
three data frames with stream ids 1, 2, 3 whose payloads the codec decodes
successfully yields `Ok` with the three header-field lists in id order. -/
theorem decode_ctrl_then_data_123 {T E H : Type} (C : CodecOps T E H)
    (p0 p1 p2 p3 : List Nat) (t1 t2 t3 t4 : T) (h1 h2 h3 : List H)
    (hl0 : p0.length < 2 ^ 32) (hl1 : p1.length < 2 ^ 32) (hl2 : p2.length < 2 ^ 32)
    (hl3 : p3.length < 2 ^ 32)
    (e0 : C.onEncoderRecv C.newTable p0 = .ok t1)
    (d1 : C.decodeHeader t1 p1 = .ok (t2, h1))
    (d2 : C.decodeHeader t2 p2 = .ok (t3, h2))
    (d3 : C.decodeHeader t3 p3 = .ok (t4, h3)) :
    decode C (encodeFrames [(0, p0), (1, p1), (2, p2), (3, p3)]) = .ok [h1, h2, h3] := by
  have hr : Runs C C.newTable 0 [] [(0, p0), (1, p1), (2, p2), (3, p3)] t4 3 [h1, h2, h3] :=
    Runs.ctrl e0 (Runs.data d1 (Runs.data d2 (Runs.data d3 (Runs.nil t4 3 [h1, h2, h3]))))
  have hwf : ∀ f ∈ [(0, p0), (1, p1), (2, p2), (3, p3)], wfFrame f := by
    intro f hf
    simp only [List.mem_cons, List.not_mem_nil, or_false] at hf
    rcases hf with rfl | rfl | rfl | rfl
    · exact ⟨by norm_num, hl0⟩
    · exact ⟨by norm_num, hl1⟩
    · exact ⟨by norm_num, hl2⟩
    · exact ⟨by norm_num, hl3⟩
  unfold decode
  rw [← List.append_nil (encodeFrames [(0, p0), (1, p1), (2, p2), (3, p3)])]
  rw [decodeLoop_runs [] hr hwf]
  exact decodeLoop_end (next_end _ (by simp))

theorem decode_ctrl_then_data_123_witness :
    decode flagCodec (encodeFrames [(0, [1]), (1, [2]), (2, [3]), (3, [4])]) =
      .ok [[2], [3], [4]] :=
  decode_ctrl_then_data_123 flagCodec [1] [2] [3] [4] () () () () [2] [3] [4]
    (by decide) (by decide) (by decide) (by decide) rfl rfl rfl rfl

/-- C2: when the data frames' ids run cleanly up to `k` and the next data
frame carries an id other than `k + 1` (and is not a control frame), the
driver stops at that frame and returns `Ok` with exactly the header-field
lists decoded before the mismatch, whatever frames follow; no error is
raised. -/
theorem decode_stops_at_first_mismatch {T E H : Type} (C : CodecOps T E H)
    {t : T} {k : Nat} {ds : List (List H)} (pre : List (Nat × List Nat)) (m : Nat)
    (p : List Nat) (rest : List (Nat × List Nat))
    (hr : Runs C C.newTable 0 [] pre t k ds) (hwf : ∀ f ∈ pre, wfFrame f)
    (hm0 : m ≠ 0) (hmk : m ≠ k + 1) (hm64 : m < 2 ^ 64) (hp : p.length < 2 ^ 32) :
    decode C (encodeFrames (pre ++ (m, p) :: rest)) = .ok ds := by
  unfold decode
  rw [encodeFrames_append]
  rw [decodeLoop_runs (encodeFrames ((m, p) :: rest)) hr hwf]
  have hb : ((⟨encodeFrames ((m, p) :: rest), 0⟩ : BlockIterator).buf.drop
      (⟨encodeFrames ((m, p) :: rest), 0⟩ : BlockIterator).last_block_len) =
      encodeFrame (m, p) ++ encodeFrames rest := by
    simp [encodeFrames]
  have hn := next_encode (E := E) ⟨encodeFrames ((m, p) :: rest), 0⟩ (m, p)
    (encodeFrames rest) hb hm64 hp
  exact decodeLoop_mismatch hn hm0 hmk

theorem decode_stops_at_first_mismatch_witness :
    decode flagCodec (encodeFrames [(1, [5]), (3, [6]), (2, [7])]) = .ok [[5]] :=
  decode_stops_at_first_mismatch flagCodec [(1, [5])] 3 [6] [(2, [7])]
    (Runs.data rfl (Runs.nil () 1 [[5]])) (by decide) (by decide) (by decide)
    (by decide) (by decide)

/-- C9: whenever at least 12 bytes remain after skipping the previous block,
the two fixed-width header decodes in `BlockIterator::next` succeed, so their
error branch (the coding layer's UnexpectedEnd conversion) is unreachable. -/
theorem header_decodes_never_fail (s : BlockIterator)
    (h12 : 12 ≤ (s.buf.drop s.last_block_len).length) :
    ∃ c b1 n b2, u64decode (s.buf.drop s.last_block_len) = .ok (c, b1) ∧
      u32decode b1 = .ok (n, b2) := by
  have h8 : ¬ (s.buf.drop s.last_block_len).length < 8 := by omega
  have h4 : ¬ ((s.buf.drop s.last_block_len).drop 8).length < 4 := by
    simp only [List.length_drop] at h12 ⊢
    omega
  refine ⟨beVal ((s.buf.drop s.last_block_len).take 8), (s.buf.drop s.last_block_len).drop 8,
    beVal (((s.buf.drop s.last_block_len).drop 8).take 4),
    ((s.buf.drop s.last_block_len).drop 8).drop 4, ?_, ?_⟩
  · unfold u64decode
    rw [if_neg h8]
  · unfold u32decode
    rw [if_neg h4]

theorem header_decodes_never_fail_witness :
    ∃ c b1 n b2,
      u64decode ((⟨[0, 0, 0, 0, 0, 0, 0, 7, 0, 0, 0, 2, 1, 1] , 0⟩ :
        BlockIterator).buf.drop (⟨[0, 0, 0, 0, 0, 0, 0, 7, 0, 0, 0, 2, 1, 1], 0⟩ :
        BlockIterator).last_block_len) = .ok (c, b1) ∧
      u32decode b1 = .ok (n, b2) :=
  header_decodes_never_fail ⟨[0, 0, 0, 0, 0, 0, 0, 7, 0, 0, 0, 2, 1, 1], 0⟩ (by decide)

/-- Result of the directory branch of `main`: decode each file in order,
pushing `Err` outcomes onto the failure list and continuing; a panic (from
`.expect("next block")`) aborts the whole run. -/
inductive BatchResult (E : Type) where
  | panicked (e : Error E)
  | done (failures : List (List Nat × Error E))
  deriving DecidableEq

/-- The `for file in dir.iter()` loop of `main`, over each file's bytes. -/
def runBatch {T E H : Type} (C : CodecOps T E H) : List (List Nat) → BatchResult E
  | [] => .done []
  | f :: fs =>
    match decode C f with
    | .panicked e => .panicked e
    | .ok _ => runBatch C fs
    | .err e =>
      match runBatch C fs with
      | .panicked e' => .panicked e'
      | .done rest => .done ((f, e) :: rest)

theorem runBatch_cons_panicked {T E H : Type} {C : CodecOps T E H} {f : List Nat}
    {fs : List (List Nat)} {e : Error E} (hd : decode C f = .panicked e) :
    runBatch C (f :: fs) = .panicked e := by
  rw [runBatch]
  split <;> simp_all

theorem runBatch_cons_ok {T E H : Type} {C : CodecOps T E H} {f : List Nat}
    {fs : List (List Nat)} {r : List (List H)} (hd : decode C f = .ok r) :
    runBatch C (f :: fs) = runBatch C fs := by
  rw [runBatch]
  split <;> simp_all

theorem runBatch_cons_err_done {T E H : Type} {C : CodecOps T E H} {f : List Nat}
    {fs : List (List Nat)} {e : Error E} {rs : List (List Nat × Error E)}
    (hd : decode C f = .err e) (hb : runBatch C fs = .done rs) :
    runBatch C (f :: fs) = .done ((f, e) :: rs) := by
  rw [runBatch]
  split <;> simp_all

theorem runBatch_cons_err_panicked {T E H : Type} {C : CodecOps T E H} {f : List Nat}
    {fs : List (List Nat)} {e e' : Error E} (hd : decode C f = .err e)
    (hb : runBatch C fs = .panicked e') : runBatch C (f :: fs) = .panicked e' := by
  rw [runBatch]
  split <;> simp_all

/-- C1 counterexample: on the one-byte file `[1]` the parser fails with
`TrailingData 1`, but `EncodedFile::decode` panics through
`.expect("next block")` instead of returning that error as the file's
failure value, and a batch containing that file aborts instead of
continuing. -/
theorem parser_error_panics_not_reported :
    decode flagCodec [1] = .panicked (.TrailingData 1) ∧
    decode flagCodec [1] ≠ .err (.TrailingData 1) ∧
    runBatch flagCodec [[1], []] = .panicked (.TrailingData 1) := by
  have hn : BlockIterator.next (E := Unit) ⟨[1], 0⟩ = .error (.TrailingData 1) := rfl
  have hd : decode flagCodec [1] = .panicked (.TrailingData 1) := decodeLoop_panicked hn
  refine ⟨hd, ?_, runBatch_cons_panicked hd⟩
  rw [hd]
  decide

/-- C1 amended: codec-level rejections are returned as the file's own `Err`
failure value and a batch records them and continues; but parser-level
errors (`TrailingData`, `UnexpectedEnd`) panic, aborting the whole batch.
Part 1: a batch of files none of which panics processes every file,
recording exactly the `Err` outcomes.  Part 2: the first panicking file
aborts the run.  Part 3: a codec rejection of a control-frame instruction or
of a data-frame header block is returned as `Err (Decode e)`. -/
theorem batch_isolates_codec_errors_but_parser_errors_panic {T E H : Type}
    (C : CodecOps T E H) :
    (∀ fs : List (List Nat), (∀ f ∈ fs, ∀ e, decode C f ≠ .panicked e) →
        runBatch C fs = .done (fs.filterMap fun f =>
          match decode C f with
          | .err e => some (f, e)
          | _ => none))
    ∧ (∀ (pre post : List (List Nat)) (f : List Nat) (e : Error E),
        (∀ g ∈ pre, ∀ e', decode C g ≠ .panicked e') →
        decode C f = .panicked e → runBatch C (pre ++ f :: post) = .panicked e)
    ∧ (∀ (pre rest : List (Nat × List Nat)) (t : T) (k : Nat) (ds : List (List H))
        (p : List Nat) (ec : E),
        Runs C C.newTable 0 [] pre t k ds → (∀ g ∈ pre, wfFrame g) →
        p.length < 2 ^ 32 →
        (C.onEncoderRecv t p = .error ec →
          decode C (encodeFrames (pre ++ (0, p) :: rest)) = .err (.Decode ec))
        ∧ (k + 1 < 2 ^ 64 → C.decodeHeader t p = .error ec →
          decode C (encodeFrames (pre ++ (k + 1, p) :: rest)) = .err (.Decode ec))) := by
  refine ⟨?_, ?_, ?_⟩
  · intro fs
    induction fs with
    | nil => intro _; rfl
    | cons f fs ih =>
      intro hnp
      have hrec := ih (fun g hg e => hnp g (List.mem_cons_of_mem _ hg) e)
      match hd : decode C f with
      | .panicked e => exact absurd hd (hnp f (by simp) e)
      | .ok r =>
        rw [runBatch_cons_ok hd, hrec]
        simp [List.filterMap_cons, hd]
      | .err e =>
        rw [runBatch_cons_err_done hd hrec]
        simp [List.filterMap_cons, hd]
  · intro pre post f e
    induction pre with
    | nil =>
      intro _ hde
      exact runBatch_cons_panicked hde
    | cons g pre ih =>
      intro hnp hde
      have hrec := ih (fun g' hg' e' => hnp g' (List.mem_cons_of_mem _ hg') e') hde
      match hd : decode C g with
      | .panicked e' => exact absurd hd (hnp g (by simp) e')
      | .ok r =>
        rw [List.cons_append, runBatch_cons_ok hd]
        exact hrec
      | .err e' =>
        rw [List.cons_append, runBatch_cons_err_panicked hd hrec]
  · intro pre rest t k ds p ec hr hwf hp
    constructor
    · intro herr
      unfold decode
      rw [encodeFrames_append, decodeLoop_runs (encodeFrames ((0, p) :: rest)) hr hwf]
      have hb : ((⟨encodeFrames ((0, p) :: rest), 0⟩ : BlockIterator).buf.drop
          (⟨encodeFrames ((0, p) :: rest), 0⟩ : BlockIterator).last_block_len) =
          encodeFrame (0, p) ++ encodeFrames rest := by
        simp [encodeFrames]
      have hn := next_encode (E := E) ⟨encodeFrames ((0, p) :: rest), 0⟩ (0, p)
        (encodeFrames rest) hb (by norm_num) hp
      exact decodeLoop_ctrl_err hn herr
    · intro hk herr
      unfold decode
      rw [encodeFrames_append, decodeLoop_runs (encodeFrames ((k + 1, p) :: rest)) hr hwf]
      have hb : ((⟨encodeFrames ((k + 1, p) :: rest), 0⟩ : BlockIterator).buf.drop
          (⟨encodeFrames ((k + 1, p) :: rest), 0⟩ : BlockIterator).last_block_len) =
          encodeFrame (k + 1, p) ++ encodeFrames rest := by
        simp [encodeFrames]
      have hn := next_encode (E := E) ⟨encodeFrames ((k + 1, p) :: rest), 0⟩ (k + 1, p)
        (encodeFrames rest) hb hk hp
      exact decodeLoop_data_err hn herr

/-- Evaluation of the concrete codec on the lone frame `(1, [5])`. -/
theorem decode_flag_data5 : decode flagCodec (encodeFrames [(1, [5])]) = .ok [[5]] := by
  unfold decode
  rw [← List.append_nil (encodeFrames [(1, [5])])]
  rw [decodeLoop_runs [] (Runs.data rfl (Runs.nil () 1 [[5]])) (by decide)]
  exact decodeLoop_end (next_end _ (by simp))

theorem batch_isolates_codec_errors_but_parser_errors_panic_witness :
    runBatch flagCodec [encodeFrames [(0, [9])], encodeFrames [(1, [5])]] =
      .done [(encodeFrames [(0, [9])], .Decode ())] := by
  have h9 : decode flagCodec (encodeFrames [(0, [9])]) = .err (.Decode ()) :=
    ((batch_isolates_codec_errors_but_parser_errors_panic flagCodec).2.2 [] [] () 0 []
      [9] () (Runs.nil () 0 []) (by decide) (by decide)).1 rfl
  have h5 : decode flagCodec (encodeFrames [(1, [5])]) = .ok [[5]] := decode_flag_data5
  have h1 := (batch_isolates_codec_errors_but_parser_errors_panic flagCodec).1
    [encodeFrames [(0, [9])], encodeFrames [(1, [5])]] ?np
  case np =>
    intro f hf e
    simp only [List.mem_cons, List.not_mem_nil, or_false] at hf
    rcases hf with rfl | rfl
    · rw [h9]
      simp
    · rw [h5]
      simp
  rw [h1]
  simp [List.filterMap_cons, h9, h5]

/-- Helper for `ancestors`, structurally recursive on the reversed
component list. -/
def ancestorsFrom (r : List String) : List (List String) :=
  match r with
  | [] => [[]]
  | _ :: t => r.reverse :: ancestorsFrom t

/-- Rust `Path::ancestors` over component lists: the path itself, then each
parent in turn, ending with the empty path. -/
def ancestors (p : List String) : List (List String) :=
  ancestorsFrom p.reverse

theorem ancestorsFrom_names (r : List String) :
    (ancestorsFrom r).filterMap (fun a => a.getLast?) = r := by
  induction r with
  | nil => rfl
  | cons x t ih =>
    simp [ancestorsFrom, List.filterMap_cons, List.getLast?_reverse, ih]

theorem ancestors_names (p : List String) :
    (ancestors p).filterMap (fun a => a.getLast?) = p.reverse := by
  rw [ancestors, ancestorsFrom_names]

/-- The filesystem as seen by `qif.rs`: `readDir` returns a directory's
child entry names, or `none` when `read_dir` fails (for example on a path
that names a regular file); `isFile` and `isDir` model `Path::is_file` and
`Path::is_dir`. -/
structure Fs where
  readDir : List String → Option (List String)
  isFile : List String → Bool
  isDir : List String → Bool

/-- The `for a in ancestors` loop body of `find_qif_dir`. -/
def findQifDirAux (fs : Fs) : List (List String) → Except Unit (Option (List String))
  | [] => .ok none
  | a :: rest =>
    match fs.readDir a with
    | none => .error ()
    | some entries =>
      if "qifs" ∈ entries then .ok (some (a ++ ["qifs"])) else findQifDirAux fs rest

/-- Model of `find_qif_dir`: probe the first 4 elements of `path.ancestors()`
(the path itself first), propagating any `read_dir` failure, and return the
first ancestor's `qifs` child when one exists. -/
def find_qif_dir (fs : Fs) (p : List String) : Except Unit (Option (List String)) :=
  findQifDirAux fs ((ancestors p).take 4)

/-- Model of `find_qif`: the canonical (pre-first-dot) part of the file name joined
onto the located `qifs` directory as `<name>.qif`. -/
def find_qif (fs : Fs) (p : List String) : Except (Error Unit) (Option (List String)) :=
  match p.getLast? with
  | none => .error .BadFilename
  | some n =>
    let name := (n.data.takeWhile (fun c => c ≠ '.')).asString
    match find_qif_dir fs p with
    | .error _ => .error .IOError
    | .ok none => .ok none
    | .ok (some d) => .ok (some (d ++ [name ++ ".qif"]))

/-- Rust `str::contains` for a literal pattern, over char lists. -/
def listContains (s pat : List Char) : Bool :=
  match s with
  | [] => pat.isEmpty
  | _ :: t => pat.isPrefixOf s || listContains t pat

/-- The `InputType` enum of `qif.rs`; `EncodedFile` carries the stored path
and the optional reference, `ImplEncodedDir` the directory path and its
parent's name. -/
inductive InputType where
  | EncodedFile (file : List String) (qif : Option (List String))
  | ImplEncodedDir (dir : List String) (impl : String)
  | QifFile
  | QifDir
  | Unknown
  deriving DecidableEq

/-- The `if let Ok(f) = find_qif(..) { f } else { None }` pattern. -/
def qifLookup (fs : Fs) (p : List String) : Option (List String) :=
  match find_qif fs p with
  | .ok f => f
  | .error _ => none

/-- Model of `InputType::is_encoded_dir`: a directory whose first three ancestor
names (own, parent, grandparent) exist with parent `qpack-05` and
grandparent `encoded`. -/
def is_encoded_dir (fs : Fs) (p : List String) : Bool :=
  if !fs.isDir p then false
  else
    let names := ((ancestors p).filterMap (fun a => a.getLast?)).take 3
    decide (3 ≤ names.length) && (names.get? 1 == some "qpack-05") &&
      (names.get? 2 == some "encoded")

/-- Model of `InputType::what_is`. -/
def what_is (fs : Fs) (p : List String) : Except (Error Unit) InputType :=
  if fs.isFile p then
    match p.getLast? with
    | none => .error .BadFilename
    | some s =>
      if listContains s.data ".out".data then
        .ok (.EncodedFile [s] (qifLookup fs [s]))
      else if List.isSuffixOf ".qif".data s.data then
        .ok .QifFile
      else
        .ok .Unknown
  else if is_encoded_dir fs p then
    .ok (.ImplEncodedDir p ((p.dropLast.getLast?).getD ""))
  else
    .ok .Unknown

/-- A filesystem with one regular file `d/f.out` whose directory `d` has a
`qifs` child: `read_dir` succeeds on `d` and on the root and fails on the
file itself. -/
def fsC7 : Fs where
  readDir := fun p =>
    if p = ["d", "f.out"] then none
    else if p = ["d"] then some ["f.out", "qifs"]
    else if p = [] then some ["d"]
    else none
  isFile := fun p => p == ["d", "f.out"]
  isDir := fun p => p == ["d"]

/-- C7 (evaluated at the failing input): `find_qif` on the file `d/f.out`
probes `read_dir` on the file path itself (the first element of
`Path::ancestors`), which fails, so the locator returns an IO error instead
of finding the `qifs` child of the containing directory `d`. -/
theorem find_qif_probes_file_path_first :
    find_qif fsC7 ["d", "f.out"] = .error .IOError ∧
    find_qif fsC7 ["d", "f.out"] ≠ .ok (some ["d", "qifs", "f.qif"]) := by
  have h : find_qif fsC7 ["d", "f.out"] = .error .IOError := rfl
  refine ⟨h, ?_⟩
  rw [h]
  simp

/-- C8: a path that is not a file and whose parent and grandparent names are
not the pair (`qpack-05`, `encoded`) is classified `Unknown`, never as an
encoded-results directory. -/
theorem what_is_unknown_off_convention (fs : Fs) (p : List String)
    (hfile : fs.isFile p = false)
    (hconv : ¬ (p.reverse[1]? = some "qpack-05" ∧ p.reverse[2]? = some "encoded")) :
    what_is fs p = .ok .Unknown := by
  have hdir : is_encoded_dir fs p = false := by
    unfold is_encoded_dir
    cases hd : fs.isDir p
    · simp
    · simp only [Bool.not_true, Bool.false_eq_true, if_false]
      rw [ancestors_names]
      rcases not_and_or.mp hconv with hc | hc
      · simp
        intro _ h1
        exact absurd h1 hc
      · simp
        intro _ _
        exact hc
  unfold what_is
  simp [hfile, hdir]

/-- A filesystem on which everything is a file and every `read_dir` fails. -/
def fsAllFiles : Fs where
  readDir := fun _ => none
  isFile := fun _ => true
  isDir := fun _ => false

/-- A filesystem on which everything is a directory and every `read_dir`
fails. -/
def fsAllDirs : Fs where
  readDir := fun _ => none
  isFile := fun _ => false
  isDir := fun _ => true

theorem what_is_unknown_off_convention_witness :
    what_is fsAllDirs ["a", "b", "c"] = .ok .Unknown :=
  what_is_unknown_off_convention fsAllDirs ["a", "b", "c"] rfl (by decide)

/-- C10: a file path whose base name contains `.out` is classified as an
encoded file holding only the base name — every parent component is
discarded — and the reference lookup runs on the bare base name, not on the
original path. -/
theorem encoded_file_keeps_base_name_only (fs : Fs) (dirs : List String) (s : String)
    (hfile : fs.isFile (dirs ++ [s]) = true)
    (hout : listContains s.data ".out".data = true) :
    what_is fs (dirs ++ [s]) = .ok (.EncodedFile [s] (qifLookup fs [s])) := by
  unfold what_is
  rw [List.getLast?_concat]
  simp [hfile, hout]

theorem encoded_file_keeps_base_name_only_witness :
    what_is fsAllFiles (["d"] ++ ["x.out"]) =
      .ok (.EncodedFile ["x.out"] (qifLookup fsAllFiles ["x.out"])) :=
  encoded_file_keeps_base_name_only fsAllFiles ["d"] "x.out" rfl (by decide)

end Qif
